import Mathlib

/-!
# Verification of the EPD grayscale tester's quantization/dithering pipeline

Shallow embedding of `src/generate_test_image.py` (class `EPDTester`).

The program computes with IEEE-754 binary64 ("double") floating point
(numpy `float64` / Python `float`).  Every float value that arises in the
quantization pipeline is a rational number, and every arithmetic step is
"compute the exact rational result, then round it to the nearest
representable double (ties to even)".  We therefore model doubles as exact
rationals and each float operation by composing exact rational arithmetic
with `rnd53`, the round-to-nearest-53-bit-significand function.  All values
occurring in this program are far inside the normal range of binary64, so
neither overflow nor subnormals need to be modelled.
-/

namespace EPD

attribute [local semireducible] Rat.mul Rat.inv Rat.add Rat.sub

set_option maxRecDepth 100000

/-- Fuel-based floor-log₂ on naturals (structural recursion so that kernel
reduction works inside `decide`): `log2fuel f n = ⌊log₂ n⌋` whenever
`0 < n < 2 ^ f`. -/
def log2fuel : ℕ → ℕ → ℕ
  | 0, _ => 0
  | f + 1, n => if 2 ≤ n then log2fuel f (n / 2) + 1 else 0

/-- `⌊log₂ n⌋` for `n ≥ 1` (and `0` for `n = 0`). -/
def log2nat (n : ℕ) : ℕ := log2fuel n n

/-- `2 ^ k` in `ℚ` for an integer exponent, computed through `Nat.pow`
(which the kernel evaluates fast). -/
def pow2 (k : ℤ) : ℚ :=
  if 0 ≤ k then ((2 ^ k.toNat : ℕ) : ℚ) else 1 / ((2 ^ (-k).toNat : ℕ) : ℚ)

/-- Floor of log₂ of a positive rational: the unique `e` with
`2 ^ e ≤ x < 2 ^ (e + 1)`. -/
def qlog2 (x : ℚ) : ℤ :=
  let a : ℤ := log2nat x.num.toNat
  let b : ℤ := log2nat x.den
  if pow2 (a - b) ≤ x then a - b else a - b - 1

/-- Round a rational to the nearest integer, ties to even.  This is the
rounding used by IEEE-754 round-to-nearest and by `np.round`. -/
def rhe (q : ℚ) : ℤ :=
  let n := ⌊q⌋
  let f := q - n
  if f < 1 / 2 then n
  else if 1 / 2 < f then n + 1
  else if Even n then n else n + 1

/-- Round a nonnegative rational to the nearest IEEE-754 binary64 value
(53-bit significand, round to nearest, ties to even), as an exact rational.
All inputs in this development are nonnegative and well inside the normal
range, so negative inputs are clamped to `0` and subnormals/overflow are
not modelled. -/
def rnd53 (x : ℚ) : ℚ :=
  if x ≤ 0 then 0
  else
    let e := qlog2 x
    (rhe (x * pow2 (52 - e)) : ℚ) * pow2 (e - 52)

/-- Truncation toward zero of a nonnegative rational to a natural number:
the effect of numpy's `.astype(np.uint8)` (C cast) and of Python's `int()`
on the nonnegative in-range floats occurring in this program. -/
def toUint8 (q : ℚ) : ℕ := q.num.toNat / q.den

/-! ## The Quantizer: `EPDTester.quantize_to_bits`

```python
def quantize_to_bits(self, image, bits):
    levels = 2 ** bits
    arr = np.array(image)
    normalized = arr / 255.0
    quantized = np.round(normalized * (levels - 1)) / (levels - 1)
    result = (quantized * 255).astype(np.uint8)
    return Image.fromarray(result, mode='L')
```

All numpy operations are elementwise over the 2-D uint8 array, so the
function is the per-pixel map below, applied to every pixel; a 2-D image
is a list of rows. -/

/-- Per-pixel action of `quantize_to_bits`.  Each float step is modelled
exactly: `arr / 255.0` is `rnd53 (p / 255)`; `normalized * (levels - 1)`
is `rnd53 (· * (levels - 1))`; `np.round` is round-half-even `rhe`;
`/ (levels - 1)` and `* 255` round again; `.astype(np.uint8)` truncates. -/
def quantize_to_bits_pixel (bits p : ℕ) : ℕ :=
  let levels : ℕ := 2 ^ bits
  let normalized : ℚ := rnd53 ((p : ℚ) / 255)
  let scaled : ℚ := rnd53 (normalized * ((levels : ℚ) - 1))
  let rounded : ℤ := rhe scaled
  let quantized : ℚ := rnd53 ((rounded : ℚ) / ((levels : ℚ) - 1))
  toUint8 (rnd53 (quantized * 255))

/-- `quantize_to_bits` on a whole image (list of rows of uint8 pixels). -/
def quantize_to_bits (bits : ℕ) (img : List (List ℕ)) : List (List ℕ) :=
  img.map (fun row => row.map (quantize_to_bits_pixel bits))

/-- The level index the Quantizer selects for pixel `p`: the result of
`np.round(normalized * (levels - 1))` in `quantize_to_bits` (first half of
`quantize_to_bits_pixel`). -/
def selected_index (bits p : ℕ) : ℤ :=
  let levels : ℕ := 2 ^ bits
  let normalized : ℚ := rnd53 ((p : ℚ) / 255)
  let scaled : ℚ := rnd53 (normalized * ((levels : ℚ) - 1))
  rhe scaled

/-- The 8-bit value the Quantizer produces for level index `j`: the result
of `(np.round(...) / (levels - 1) * 255).astype(np.uint8)` (second half of
`quantize_to_bits_pixel`). -/
def out_level (bits : ℕ) (j : ℤ) : ℕ :=
  let levels : ℕ := 2 ^ bits
  let quantized : ℚ := rnd53 ((j : ℚ) / ((levels : ℚ) - 1))
  toUint8 (rnd53 (quantized * 255))

theorem quantize_to_bits_pixel_decomp (bits p : ℕ) :
    quantize_to_bits_pixel bits p = out_level bits (selected_index bits p) := rfl

/-! ## The gradient strip: `"gradient"` mode of `create_grayscale_strip`

```python
for x in range(width):
    progress = x / (width - 1) if width > 1 else 0
    gray_value = int(255 * (1 - progress))
    draw.line([(x, 0), (x, height-1)], fill=gray_value)
```
-/

/-- Per-column pixel of the gradient strip.  `x / (width - 1)` is float
division, `1 - progress` and `255 * (...)` are float operations, `int`
truncates toward zero. -/
def gradient_pixel (width x : ℕ) : ℕ :=
  let progress : ℚ := if 1 < width then rnd53 ((x : ℚ) / ((width : ℚ) - 1)) else 0
  toUint8 (rnd53 (255 * rnd53 (1 - progress)))

/-- The single row of the smooth-gradient strip; every row of the strip is
identical, the strip fills column `x` with `gradient_pixel width x`. -/
def gradient_row (width : ℕ) : List ℕ :=
  (List.range width).map (gradient_pixel width)

/-- The full gradient strip: `height` identical rows. -/
def gradient_strip (width height : ℕ) : List (List ℕ) :=
  List.replicate height (gradient_row width)

/-! ## The Ditherer's post-processing: tail of `EPDTester.apply_dithering`

```python
arr = np.array(result)
if arr.max() > arr.min():
    unique_vals = np.unique(arr)
    if len(unique_vals) == levels:
        for i, val in enumerate(sorted(unique_vals)):
            target_val = int(255 * i / (levels - 1))
            arr[arr == val] = target_val
        result = Image.fromarray(arr.astype(np.uint8), mode='L')
```

The external ImageMagick engine that produces the raw dithered image is
out of scope (assumed correct per the spec); the post-processing operates
on an arbitrary raw result, modelled as a flat list of pixel values (all
numpy operations above are elementwise / whole-array, so the 2-D layout is
irrelevant to them). -/

/-- Maximum pixel value of a buffer (`arr.max()`; buffers are nonempty in
the program, the `[]` case is arbitrary). -/
def listMax (a : List ℕ) : ℕ := a.foldr max 0

/-- Minimum pixel value of a buffer (`arr.min()`; buffers are nonempty in
the program, the `[]` case is arbitrary). -/
def listMin (a : List ℕ) : ℕ :=
  match a with
  | [] => 0
  | h :: t => t.foldr min h

/-- `np.unique(arr)`: the distinct pixel values in ascending order. -/
def unique_vals (a : List ℕ) : List ℕ := a.dedup.insertionSort (· ≤ ·)

/-- `int(255 * i / (levels - 1))`: `255 * i` is exact integer arithmetic,
the division is one float operation, `int` truncates toward zero. -/
def remap_target (levels i : ℕ) : ℕ :=
  toUint8 (rnd53 ((255 * (i : ℚ)) / ((levels : ℚ) - 1)))

/-- The in-place remap loop: for each `(i, val)` of the enumerated sorted
unique values, every pixel currently equal to `val` is overwritten with
`remap_target levels i`. -/
def remap_loop (levels : ℕ) (vals : List ℕ) (a : List ℕ) : List ℕ :=
  vals.enum.foldl
    (fun acc iv => acc.map (fun v => if v = iv.2 then remap_target levels iv.1 else v)) a

/-- The whole post-processing step of `apply_dithering` on the raw dithered
pixel values. -/
def apply_dithering_post (bits : ℕ) (a : List ℕ) : List ℕ :=
  let levels : ℕ := 2 ^ bits
  if listMin a < listMax a then
    let vals := unique_vals a
    if vals.length = levels then remap_loop levels vals a
    else a
  else a

/-! ## Strip processing dispatch: `create_grayscale_strip` / `create_section`

The processing applied to a strip (lines 91–133 of the source): `"native"`
mode returns `quantize_to_bits(strip, target_bits)` directly; for the other
modes the tail of `create_grayscale_strip` dispatches on
`(target_bits, dithered, mode)`:

```python
if target_bits < 4 and dithered:
    strip = self.apply_dithering(strip, target_bits)
elif target_bits < 4:
    strip = self.quantize_to_bits(strip, target_bits)
elif mode == "gradient" and target_bits == 4:
    pass
else:
    strip = self.quantize_to_bits(strip, target_bits)
```

The Ditherer (external engine + post-processing) is abstracted as an opaque
buffer transform `dither`. -/

/-- The `mode` argument of `create_grayscale_strip`. -/
inductive StripMode
  | native
  | blocks16
  | gradient
deriving DecidableEq

/-- The processing `create_grayscale_strip` applies to the strip content it
drew, as a function of the strip (the drawing of the content itself is
separate; for `"native"` mode the function returns at line 101 with
`quantize_to_bits`). -/
def create_grayscale_strip_process (dither : List (List ℕ) → List (List ℕ))
    (mode : StripMode) (dithered : Bool) (target_bits : ℕ)
    (strip : List (List ℕ)) : List (List ℕ) :=
  match mode with
  | .native => quantize_to_bits target_bits strip
  | _ =>
    if target_bits < 4 ∧ dithered then dither strip
    else if target_bits < 4 then quantize_to_bits target_bits strip
    else if mode = .gradient ∧ target_bits = 4 then strip
    else quantize_to_bits target_bits strip

/-- How `create_section` processes the 16-level block strip (strip 2) and
the smooth gradient strip (strip 3): both are called with
`dithered=(bit_depth < 4)`. -/
def create_section_strip (dither : List (List ℕ) → List (List ℕ))
    (bit_depth : ℕ) (mode : StripMode) (strip : List (List ℕ)) : List (List ℕ) :=
  create_grayscale_strip_process dither mode (decide (bit_depth < 4)) bit_depth strip

/-! ## Specification-side definitions (from the spec's formulas)

These are *not* translations of the source; they state the level sets the
spec's claims talk about, for comparison with what the code computes. -/

/-- The canonical level set of the spec: `round(255 * i / (L - 1))` for
`L = 2^bits` (the quotient is never a half-integer for `L ∈ {2,4,8,16}`,
so rounding is unambiguous; this is `⌊(2·255·i + (L-1)) / (2(L-1))⌋`). -/
def canonical_level (bits i : ℕ) : ℕ :=
  (2 * 255 * i + (2 ^ bits - 1)) / (2 * (2 ^ bits - 1))

/-- The index of the canonical level nearest to pixel value `p`:
the nearest integer to `p * (L-1) / 255` (never a tie). -/
def nearest_index (bits p : ℕ) : ℕ :=
  (2 * p * (2 ^ bits - 1) + 255) / 510

/-- Closed-form Nat model of the Quantizer's per-pixel map, proved equal to
`quantize_to_bits_pixel` on all 8-bit inputs below: pick the nearest level
index, rescale with *floor* (the float rescale plus uint8 truncation). -/
def qmodel (bits p : ℕ) : ℕ :=
  255 * nearest_index bits p / (2 ^ bits - 1)

/-- The list of 8-bit values the Quantizer can output at depth `bits`. -/
def out_levels (bits : ℕ) : List ℕ :=
  (List.range (2 ^ bits)).map (fun i => 255 * i / (2 ^ bits - 1))

/-- Nat distance (for the "nearest canonical level" statements). -/
def ndist (a b : ℕ) : ℕ := (a - b) + (b - a)

/-- The action of the remap loop on one pixel: process the (sorted unique)
values `vs` whose enumeration starts at index `i`. -/
def remap_chain (levels i : ℕ) (vs : List ℕ) (v : ℕ) : ℕ :=
  match vs with
  | [] => v
  | w :: ws =>
    remap_chain levels (i + 1) ws (if v = w then remap_target levels i else v)

/-! ## Bridge lemmas: the float pipeline evaluated in closed form

The float chain is evaluated exactly (by kernel computation) on all 8-bit
inputs and all bit depths `1..4`, and shown to agree with the `ℕ`-valued
closed forms.  These are the only computations over the `rnd53` model that
have to be run exhaustively; everything downstream works on the closed
forms. -/

set_option maxHeartbeats 4000000 in
/-- On 8-bit inputs, the Quantizer's `np.round(normalized * (levels-1))`
step computes exactly the nearest integer to `p * (L-1) / 255` (floating
point error never flips the rounding, and no tie occurs). -/
theorem selected_index_eq (bits : ℕ) (h1 : 1 ≤ bits) (h4 : bits ≤ 4) :
    ∀ p : ℕ, p < 256 → selected_index bits p = (nearest_index bits p : ℤ) := by
  interval_cases bits
  · decide
  · decide
  · decide
  · decide

set_option maxHeartbeats 1000000 in
/-- The Quantizer's rescale of level index `j` back to 8 bits lands on
`⌊255 * j / (L-1)⌋`: the float multiply can undershoot the exact rational
`255 * j / (L-1)` and the uint8 cast truncates. -/
theorem out_level_eq (bits : ℕ) (h1 : 1 ≤ bits) (h4 : bits ≤ 4) :
    ∀ j : ℕ, j < 2 ^ bits → out_level bits (j : ℤ) = 255 * j / (2 ^ bits - 1) := by
  interval_cases bits
  · decide
  · decide
  · decide
  · decide

set_option maxHeartbeats 1000000 in
/-- The Ditherer's remap target `int(255 * i / (levels - 1))` equals
`⌊255 * i / (L-1)⌋`. -/
theorem remap_target_eq (bits : ℕ) (h1 : 1 ≤ bits) (h4 : bits ≤ 4) :
    ∀ i : ℕ, i < 2 ^ bits → remap_target (2 ^ bits) i = 255 * i / (2 ^ bits - 1) := by
  interval_cases bits
  · decide
  · decide
  · decide
  · decide

/-- The nearest level index of an 8-bit pixel is a valid index. -/
theorem nearest_index_lt (bits : ℕ) (h1 : 1 ≤ bits) (h4 : bits ≤ 4) :
    ∀ p : ℕ, p < 256 → nearest_index bits p < 2 ^ bits := by
  interval_cases bits <;> decide

/-- The Quantizer's per-pixel map, in closed form on 8-bit inputs. -/
theorem quantize_to_bits_pixel_eq (bits : ℕ) (h1 : 1 ≤ bits) (h4 : bits ≤ 4)
    (p : ℕ) (hp : p < 256) : quantize_to_bits_pixel bits p = qmodel bits p := by
  rw [quantize_to_bits_pixel_decomp, selected_index_eq bits h1 h4 p hp]
  exact out_level_eq bits h1 h4 _ (nearest_index_lt bits h1 h4 p hp)

/-! ## Facts about the closed-form model (fast `ℕ`-only computations) -/

/-- The closed-form map stays in the 8-bit range. -/
theorem qmodel_le_255 (bits : ℕ) (h1 : 1 ≤ bits) (h4 : bits ≤ 4) :
    ∀ p : ℕ, p < 256 → qmodel bits p ≤ 255 := by
  interval_cases bits <;> decide

/-- The closed-form map is idempotent on 8-bit inputs. -/
theorem qmodel_idem (bits : ℕ) (h1 : 1 ≤ bits) (h4 : bits ≤ 4) :
    ∀ p : ℕ, p < 256 → qmodel bits (qmodel bits p) = qmodel bits p := by
  interval_cases bits <;> decide

/-- The closed-form map is monotone step by step. -/
theorem qmodel_step (bits : ℕ) (h1 : 1 ≤ bits) (h4 : bits ≤ 4) :
    ∀ p : ℕ, p < 255 → qmodel bits p ≤ qmodel bits (p + 1) := by
  interval_cases bits <;> decide

/-- The closed-form map lands in the output level list. -/
theorem qmodel_mem_out_levels (bits : ℕ) (h1 : 1 ≤ bits) (h4 : bits ≤ 4) :
    ∀ p : ℕ, p < 256 → qmodel bits p ∈ out_levels bits := by
  interval_cases bits <;> decide

/-- The output level list has no duplicates. -/
theorem out_levels_nodup (bits : ℕ) (h1 : 1 ≤ bits) (h4 : bits ≤ 4) :
    (out_levels bits).Nodup := by
  interval_cases bits <;> decide

/-- A step-by-step monotone `ℕ`-function is monotone on `[0, n]`. -/
theorem mono_of_step {f : ℕ → ℕ} {n : ℕ} (h : ∀ k, k < n → f k ≤ f (k + 1)) :
    ∀ p q, p ≤ q → q ≤ n → f p ≤ f q := by
  intro p q
  induction q with
  | zero =>
    intro hpq _
    have hp0 : p = 0 := Nat.le_zero.mp hpq
    rw [hp0]
  | succ m ih =>
    intro hpq hq
    rcases Nat.eq_or_lt_of_le hpq with rfl | hlt
    · exact Nat.le_refl _
    · exact Nat.le_trans (ih (Nat.lt_succ_iff.mp hlt) (Nat.le_of_succ_le hq))
        (h m (Nat.lt_of_succ_le hq))

/-- The Quantizer's per-pixel map is monotone on 8-bit inputs. -/
theorem quantize_pixel_mono (bits : ℕ) (h1 : 1 ≤ bits) (h4 : bits ≤ 4)
    {p q : ℕ} (hpq : p ≤ q) (hq : q ≤ 255) :
    quantize_to_bits_pixel bits p ≤ quantize_to_bits_pixel bits q := by
  have hp' : p < 256 := by omega
  have hq' : q < 256 := by omega
  rw [quantize_to_bits_pixel_eq bits h1 h4 p hp',
    quantize_to_bits_pixel_eq bits h1 h4 q hq']
  exact mono_of_step (fun k hk => qmodel_step bits h1 h4 k hk) p q hpq hq

/-- Pointwise `≤` between rows is preserved by the Quantizer. -/
theorem quantize_row_mono (bits : ℕ) (h1 : 1 ≤ bits) (h4 : bits ≤ 4) :
    ∀ r1 r2 : List ℕ, (∀ p ∈ r2, p < 256) → List.Forall₂ (· ≤ ·) r1 r2 →
      List.Forall₂ (· ≤ ·) (r1.map (quantize_to_bits_pixel bits))
        (r2.map (quantize_to_bits_pixel bits)) := by
  intro r1 r2 h8 hrel
  induction hrel with
  | nil => exact List.Forall₂.nil
  | @cons a b l1 l2 hab _ ih =>
    refine List.Forall₂.cons ?_
      (ih (fun p hp => h8 p (List.mem_cons_of_mem _ hp)))
    exact quantize_pixel_mono bits h1 h4 hab
      (by have := h8 b (List.mem_cons_self b l2); omega)

/-- `nearest_index` really is the index of the nearest canonical level. -/
theorem nearest_index_is_nearest (bits : ℕ) (h1 : 1 ≤ bits) (h4 : bits ≤ 4) :
    ∀ p : ℕ, p < 256 → ∀ j : ℕ, j < 2 ^ bits →
      ndist p (canonical_level bits (nearest_index bits p)) ≤
        ndist p (canonical_level bits j) := by
  interval_cases bits <;> decide

/-- Undershoot bounds of the closed form against the canonical levels. -/
theorem c10_nat_facts (bits : ℕ) (h1 : 1 ≤ bits) (h4 : bits ≤ 4) :
    ∀ p : ℕ, p < 256 →
      canonical_level bits (nearest_index bits p) - 1 ≤ qmodel bits p ∧
      qmodel bits p ≤ canonical_level bits (nearest_index bits p) := by
  interval_cases bits <;> decide

/-- The closed form reproduces black and white exactly. -/
theorem qmodel_endpoints (bits : ℕ) (h1 : 1 ≤ bits) (h4 : bits ≤ 4) :
    qmodel bits 0 = 0 ∧ qmodel bits 255 = 255 := by
  interval_cases bits <;> decide

/-! ## The remap loop, elementwise

`arr[arr == val] = target_val` is an elementwise write over the whole
array, so the fold over `enumerate(sorted(unique_vals))` acts on every
pixel independently as the chain of conditional replacements below. -/

/-- The fold of `remap_loop` is the elementwise `remap_chain`. -/
theorem remap_fold_eq (levels : ℕ) : ∀ (vs : List ℕ) (i : ℕ) (a : List ℕ),
    (List.enumFrom i vs).foldl
      (fun acc iv => acc.map (fun v => if v = iv.2 then remap_target levels iv.1 else v)) a
      = a.map (remap_chain levels i vs) := by
  intro vs
  induction vs with
  | nil =>
    intro i a
    show a = a.map (remap_chain levels i [])
    have h : a.map (remap_chain levels i []) = a.map id :=
      List.map_congr_left (fun v _ => rfl)
    rw [h, List.map_id]
  | cons w ws ih =>
    intro i a
    show (List.enumFrom (i + 1) ws).foldl _ (a.map _) = _
    rw [ih (i + 1), List.map_map]
    exact List.map_congr_left (fun v _ => rfl)

/-- `remap_loop` in elementwise form. -/
theorem remap_loop_eq (levels : ℕ) (vals a : List ℕ) :
    remap_loop levels vals a = a.map (remap_chain levels 0 vals) :=
  remap_fold_eq levels vals 0 a

/-- A pixel value not among the processed values is left unchanged. -/
theorem remap_chain_not_mem (levels : ℕ) :
    ∀ (vs : List ℕ) (i v : ℕ), v ∉ vs → remap_chain levels i vs v = v := by
  intro vs
  induction vs with
  | nil => intro i v _; rfl
  | cons w ws ih =>
    intro i v hv
    have hvw : v ≠ w := fun h => hv (h ▸ List.mem_cons_self w ws)
    show remap_chain levels (i + 1) ws (if v = w then _ else v) = v
    rw [if_neg hvw]
    exact ih (i + 1) v (fun h => hv (List.mem_cons_of_mem _ h))

/-- If no remap target collides with a later processed value, each
processed value is mapped to the target of its own index. -/
theorem remap_chain_indexOf (levels : ℕ) :
    ∀ (vs : List ℕ) (i : ℕ),
      (∀ j k, j < k → k < vs.length → remap_target levels (i + j) ≠ vs.getD k 0) →
      ∀ v ∈ vs, remap_chain levels i vs v = remap_target levels (i + vs.indexOf v) := by
  intro vs
  induction vs with
  | nil => intro i _ v hv; cases hv
  | cons w ws ih =>
    intro i hcol v hv
    show remap_chain levels (i + 1) ws (if v = w then remap_target levels i else v) = _
    by_cases hvw : v = w
    · subst hvw
      rw [if_pos rfl]
      have hnotmem : remap_target levels i ∉ ws := by
        intro hmem
        rcases List.mem_iff_getElem?.mp hmem with ⟨k, hk⟩
        have hklen : k < ws.length := by
          by_contra hge
          rw [List.getElem?_eq_none (Nat.le_of_not_lt hge)] at hk
          cases hk
        refine hcol 0 (k + 1) (Nat.succ_pos k)
          (by simpa using Nat.succ_lt_succ hklen) ?_
        show remap_target levels (i + 0) = (v :: ws).getD (k + 1) 0
        rw [Nat.add_zero, List.getD_cons_succ, List.getD_eq_getElem?_getD, hk]
        rfl
      rw [remap_chain_not_mem levels ws (i + 1) _ hnotmem,
        List.indexOf_cons_self, Nat.add_zero]
    · rw [if_neg hvw]
      have hvmem : v ∈ ws := by
        rcases List.mem_cons.mp hv with h | h
        · exact absurd h hvw
        · exact h
      have hcol' : ∀ j k, j < k → k < ws.length →
          remap_target levels (i + 1 + j) ≠ ws.getD k 0 := by
        intro j k hjk hk
        have := hcol (j + 1) (k + 1) (Nat.succ_lt_succ hjk)
          (by simpa using Nat.succ_lt_succ hk)
        rw [List.getD_cons_succ] at this
        have harith : i + (j + 1) = i + 1 + j := by omega
        rw [harith] at this
        exact this
      rw [ih (i + 1) hcol' v hvmem, List.indexOf_cons_ne ws (fun h => hvw h.symm)]
      have harith : i + 1 + List.indexOf v ws = i + Nat.succ (List.indexOf v ws) := by
        omega
      rw [harith]

/-- The distinct values of a buffer are exactly its members. -/
theorem mem_unique_vals {a : List ℕ} {v : ℕ} : v ∈ unique_vals a ↔ v ∈ a := by
  rw [unique_vals, List.mem_insertionSort, List.mem_dedup]

/-- Bounds of the buffer maximum. -/
theorem le_listMax {a : List ℕ} {x : ℕ} (hx : x ∈ a) : x ≤ listMax a := by
  induction a with
  | nil => cases hx
  | cons h t ih =>
    rcases List.mem_cons.mp hx with rfl | hxt
    · exact Nat.le_max_left _ _
    · exact Nat.le_trans (ih hxt) (Nat.le_max_right _ _)

/-- `foldr min` is bounded by its initial value. -/
theorem foldr_min_le_init (t : List ℕ) (init : ℕ) : t.foldr min init ≤ init := by
  induction t with
  | nil => exact Nat.le_refl _
  | cons h t ih => exact Nat.le_trans (Nat.min_le_right _ _) ih

/-- `foldr min` is bounded by each member. -/
theorem foldr_min_le_mem {t : List ℕ} {x : ℕ} (hx : x ∈ t) (init : ℕ) :
    t.foldr min init ≤ x := by
  induction t with
  | nil => cases hx
  | cons h t ih =>
    rcases List.mem_cons.mp hx with rfl | hxt
    · exact Nat.min_le_left _ _
    · exact Nat.le_trans (Nat.min_le_right _ _) (ih hxt)

/-- Bounds of the buffer minimum. -/
theorem listMin_le {a : List ℕ} {x : ℕ} (hx : x ∈ a) : listMin a ≤ x := by
  cases a with
  | nil => cases hx
  | cons h t =>
    show t.foldr min h ≤ x
    rcases List.mem_cons.mp hx with rfl | hxt
    · exact foldr_min_le_init t x
    · exact foldr_min_le_mem hxt h

/-- A buffer with at least two distinct values has `min < max`. -/
theorem listMin_lt_listMax {a : List ℕ} (h2 : 2 ≤ (unique_vals a).length) :
    listMin a < listMax a := by
  rcases hu : unique_vals a with _ | ⟨v0, _ | ⟨v1, rest⟩⟩
  · rw [hu] at h2; cases h2
  · rw [hu] at h2; simp at h2
  · have hnd : (unique_vals a).Nodup := by
      rw [unique_vals]
      exact ((List.perm_insertionSort _ _).nodup_iff).mpr (List.nodup_dedup _)
    rw [hu] at hnd
    have hne : v0 ≠ v1 := by
      intro h
      exact (List.nodup_cons.mp hnd).1 (h ▸ List.mem_cons_self v1 rest)
    have hv0 : v0 ∈ a := mem_unique_vals.mp (hu ▸ List.mem_cons_self _ _)
    have hv1 : v1 ∈ a :=
      mem_unique_vals.mp (hu ▸ List.mem_cons_of_mem _ (List.mem_cons_self _ _))
    have h1 := listMin_le hv0
    have h2' := listMin_le hv1
    have h3 := le_listMax hv0
    have h4' := le_listMax hv1
    omega

/-! ## Analysis of the binary64 model

Correctness of the exponent finder, error bounds and monotonicity of
`rnd53`: what is needed to reason about the gradient pipeline at arbitrary
widths. -/

/-- Correctness of the fuel-based log: enough fuel pins down `⌊log₂⌋`. -/
theorem log2fuel_correct : ∀ (f n : ℕ), 0 < n → n < 2 ^ f →
    2 ^ log2fuel f n ≤ n ∧ n < 2 ^ (log2fuel f n + 1) := by
  intro f
  induction f with
  | zero =>
    intro n hn hf
    simp only [pow_zero] at hf
    omega
  | succ f ih =>
    intro n hn hf
    by_cases h2 : 2 ≤ n
    · have hrec : log2fuel (f + 1) n = log2fuel f (n / 2) + 1 := by
        simp [log2fuel, h2]
      have hpos : 0 < n / 2 := Nat.div_pos h2 (by omega)
      have hlt : n / 2 < 2 ^ f := by
        rw [Nat.div_lt_iff_lt_mul (by omega : 0 < 2)]
        calc n < 2 ^ (f + 1) := hf
        _ = 2 ^ f * 2 := by rw [pow_succ]
      obtain ⟨hlo, hhi⟩ := ih (n / 2) hpos hlt
      rw [hrec]
      constructor
      · have e1 : 2 ^ (log2fuel f (n / 2) + 1) = 2 ^ log2fuel f (n / 2) * 2 :=
          pow_succ 2 _
        rw [e1]
        exact le_trans (Nat.mul_le_mul_right 2 hlo) (Nat.div_mul_le_self n 2)
      · have e1 : n < (n / 2 + 1) * 2 := by omega
        have e2 : (n / 2 + 1) * 2 ≤ 2 ^ (log2fuel f (n / 2) + 1) * 2 :=
          Nat.mul_le_mul_right 2 (Nat.succ_le_of_lt hhi)
        have e3 : 2 ^ (log2fuel f (n / 2) + 1) * 2 = 2 ^ (log2fuel f (n / 2) + 1 + 1) :=
          (pow_succ 2 _).symm
        exact lt_of_lt_of_le e1 (e3 ▸ e2)
    · have hn1 : n = 1 := by omega
      subst hn1
      simp [log2fuel, h2]

/-- `log2nat` correctness. -/
theorem log2nat_correct {n : ℕ} (hn : 0 < n) :
    2 ^ log2nat n ≤ n ∧ n < 2 ^ (log2nat n + 1) :=
  log2fuel_correct n n hn (Nat.lt_two_pow n)

/-- `pow2` is the integer power of two in `ℚ`. -/
theorem pow2_eq_zpow (k : ℤ) : pow2 k = (2 : ℚ) ^ k := by
  unfold pow2
  by_cases hk : 0 ≤ k
  · rw [if_pos hk]
    push_cast
    rw [← zpow_natCast (2 : ℚ) k.toNat, Int.toNat_of_nonneg hk]
  · rw [if_neg hk]
    push_cast
    rw [one_div, ← zpow_natCast (2 : ℚ) (-k).toNat,
      Int.toNat_of_nonneg (by omega : (0 : ℤ) ≤ -k), ← zpow_neg, neg_neg]

/-- `2 ^ ·` is positive in `ℚ`. -/
theorem zpow2_pos (k : ℤ) : (0 : ℚ) < (2 : ℚ) ^ k :=
  zpow_pos (by norm_num) k

/-- `2 ^ ·` is monotone in the exponent. -/
theorem zpow2_mono {m n : ℤ} (h : m ≤ n) : (2 : ℚ) ^ m ≤ (2 : ℚ) ^ n := by
  exact zpow_le_zpow_right₀ (by norm_num) h

/-- `2 ^ ·` is strictly monotone in the exponent. -/
theorem zpow2_strictMono {m n : ℤ} (h : m < n) : (2 : ℚ) ^ m < (2 : ℚ) ^ n := by
  exact zpow_lt_zpow_right₀ (by norm_num) h

/-- `2 ^ 52` over `ℤ`-exponent versus the integer cast. -/
theorem zpow52_cast : (2 : ℚ) ^ (52 : ℤ) = ((2 ^ 52 : ℤ) : ℚ) := by
  rw [show (52 : ℤ) = ((52 : ℕ) : ℤ) from rfl, zpow_natCast]
  push_cast
  ring

/-- `2 ^ 53` over `ℤ`-exponent versus the integer cast. -/
theorem zpow53_cast : (2 : ℚ) ^ (53 : ℤ) = ((2 ^ 53 : ℤ) : ℚ) := by
  rw [show (53 : ℤ) = ((53 : ℕ) : ℤ) from rfl, zpow_natCast]
  push_cast
  ring

/-- The `log2nat` bounds, transported to `ℚ` with integer exponents. -/
theorem log2nat_boundsQ {n : ℕ} (hn : 0 < n) :
    (2 : ℚ) ^ ((log2nat n : ℕ) : ℤ) ≤ (n : ℚ) ∧
    (n : ℚ) < (2 : ℚ) ^ (((log2nat n : ℕ) : ℤ) + 1) := by
  obtain ⟨h1, h2⟩ := log2nat_correct hn
  constructor
  · rw [zpow_natCast]
    exact_mod_cast h1
  · have he : ((log2nat n : ℕ) : ℤ) + 1 = ((log2nat n + 1 : ℕ) : ℤ) := by push_cast; ring
    rw [he, zpow_natCast]
    exact_mod_cast h2

/-- Correctness of `qlog2` on positive rationals. -/
theorem qlog2_correct {x : ℚ} (hx : 0 < x) :
    (2 : ℚ) ^ qlog2 x ≤ x ∧ x < (2 : ℚ) ^ (qlog2 x + 1) := by
  have hnum : 0 < x.num := Rat.num_pos.mpr hx
  have hden : 0 < x.den := x.pos
  have hNQ : ((x.num.toNat : ℕ) : ℚ) = (x.num : ℚ) := by
    exact_mod_cast Int.toNat_of_nonneg (le_of_lt hnum)
  obtain ⟨hA1, hA2⟩ := log2nat_boundsQ (n := x.num.toNat) (by omega)
  obtain ⟨hB1, hB2⟩ := log2nat_boundsQ (n := x.den) hden
  rw [hNQ] at hA1 hA2
  set A : ℤ := ((log2nat x.num.toNat : ℕ) : ℤ) with hA
  set B : ℤ := ((log2nat x.den : ℕ) : ℤ) with hB
  have hxeq : x = (x.num : ℚ) / (x.den : ℚ) := (Rat.num_div_den x).symm
  have hdenQ : (0 : ℚ) < (x.den : ℚ) := by exact_mod_cast hden
  have hupper : x < (2 : ℚ) ^ (A - B + 1) := by
    rw [hxeq, div_lt_iff₀ hdenQ]
    have e1 : (2 : ℚ) ^ (A - B + 1) * (2 : ℚ) ^ B = (2 : ℚ) ^ (A + 1) := by
      rw [← zpow_add₀ (by norm_num : (2 : ℚ) ≠ 0)]
      ring_nf
    have e2 : (2 : ℚ) ^ (A - B + 1) * (2 : ℚ) ^ B ≤
        (2 : ℚ) ^ (A - B + 1) * (x.den : ℚ) :=
      mul_le_mul_of_nonneg_left hB1 (le_of_lt (zpow2_pos _))
    rw [e1] at e2
    exact lt_of_lt_of_le hA2 e2
  have hlower : (2 : ℚ) ^ (A - B - 1) < x := by
    rw [hxeq, lt_div_iff₀ hdenQ]
    have e1 : (2 : ℚ) ^ (A - B - 1) * (2 : ℚ) ^ (B + 1) = (2 : ℚ) ^ A := by
      rw [← zpow_add₀ (by norm_num : (2 : ℚ) ≠ 0)]
      ring_nf
    have e2 : (2 : ℚ) ^ (A - B - 1) * (x.den : ℚ) <
        (2 : ℚ) ^ (A - B - 1) * (2 : ℚ) ^ (B + 1) :=
      mul_lt_mul_of_pos_left hB2 (zpow2_pos _)
    rw [e1] at e2
    exact lt_of_lt_of_le e2 hA1
  have hqdef : qlog2 x = if pow2 (A - B) ≤ x then A - B else A - B - 1 := rfl
  by_cases hcase : pow2 (A - B) ≤ x
  · rw [hqdef, if_pos hcase]
    rw [pow2_eq_zpow] at hcase
    exact ⟨hcase, hupper⟩
  · rw [hqdef, if_neg hcase]
    rw [pow2_eq_zpow] at hcase
    constructor
    · exact le_of_lt hlower
    · have he : A - B - 1 + 1 = A - B := by ring
      rw [he]
      exact lt_of_not_le hcase

/-- `qlog2` is determined by the dyadic interval. -/
theorem qlog2_unique {x : ℚ} (hx : 0 < x) {e : ℤ}
    (hlo : (2 : ℚ) ^ e ≤ x) (hhi : x < (2 : ℚ) ^ (e + 1)) : qlog2 x = e := by
  obtain ⟨hl, hh⟩ := qlog2_correct hx
  by_contra hne
  rcases lt_or_gt_of_ne hne with h | h
  · exact absurd (lt_of_le_of_lt hlo hh)
      (not_lt.mpr (zpow2_mono (by omega)))
  · exact absurd (lt_of_le_of_lt hl hhi)
      (not_lt.mpr (zpow2_mono (by omega)))

/-- Branch characterization of round-half-even. -/
theorem rhe_eq_cases (q : ℚ) :
    (q - ⌊q⌋ < 1 / 2 ∧ rhe q = ⌊q⌋) ∨
    (1 / 2 < q - ⌊q⌋ ∧ rhe q = ⌊q⌋ + 1) ∨
    (q - ⌊q⌋ = 1 / 2 ∧ Even ⌊q⌋ ∧ rhe q = ⌊q⌋) ∨
    (q - ⌊q⌋ = 1 / 2 ∧ ¬Even ⌊q⌋ ∧ rhe q = ⌊q⌋ + 1) := by
  have hdef : rhe q = if q - (⌊q⌋ : ℚ) < 1 / 2 then ⌊q⌋
      else if 1 / 2 < q - (⌊q⌋ : ℚ) then ⌊q⌋ + 1
      else if Even ⌊q⌋ then ⌊q⌋ else ⌊q⌋ + 1 := rfl
  rw [hdef]
  split_ifs with h1 h2 h3
  · exact Or.inl ⟨h1, rfl⟩
  · exact Or.inr (Or.inl ⟨h2, rfl⟩)
  · exact Or.inr (Or.inr (Or.inl ⟨by linarith, h3, rfl⟩))
  · exact Or.inr (Or.inr (Or.inr ⟨by linarith, h3, rfl⟩))

/-- Round-half-even does not round below the floor. -/
theorem floor_le_rhe (q : ℚ) : ⌊q⌋ ≤ rhe q := by
  rcases rhe_eq_cases q with ⟨_, h⟩ | ⟨_, h⟩ | ⟨_, _, h⟩ | ⟨_, _, h⟩ <;> omega

/-- Round-half-even does not round above the ceiling. -/
theorem rhe_le_floor_add_one (q : ℚ) : rhe q ≤ ⌊q⌋ + 1 := by
  rcases rhe_eq_cases q with ⟨_, h⟩ | ⟨_, h⟩ | ⟨_, _, h⟩ | ⟨_, _, h⟩ <;> omega

/-- Round-half-even is within a half of its argument. -/
theorem rhe_err (q : ℚ) : |(rhe q : ℚ) - q| ≤ 1 / 2 := by
  have hfl : (⌊q⌋ : ℚ) ≤ q := Int.floor_le q
  have hfu : q < (⌊q⌋ : ℚ) + 1 := Int.lt_floor_add_one q
  rw [abs_le]
  rcases rhe_eq_cases q with ⟨hb, h⟩ | ⟨hb, h⟩ | ⟨hb, _, h⟩ | ⟨hb, _, h⟩ <;>
    rw [h] <;> push_cast <;> constructor <;> linarith

/-- Round-half-even of an integer. -/
theorem rhe_intCast (n : ℤ) : rhe (n : ℚ) = n := by
  have h := floor_le_rhe (n : ℚ)
  have h3 := rhe_err (n : ℚ)
  rw [Int.floor_intCast] at h
  rw [abs_le] at h3
  have h6 : ((rhe (n : ℚ) : ℤ) : ℚ) < ((n + 1 : ℤ) : ℚ) := by
    push_cast
    linarith [h3.2]
  have h7 : rhe (n : ℚ) < n + 1 := by exact_mod_cast h6
  omega

/-- Round-half-even is monotone. -/
theorem rhe_mono {p q : ℚ} (h : p ≤ q) : rhe p ≤ rhe q := by
  have hf2 : ⌊p⌋ ≤ ⌊q⌋ := Int.floor_le_floor h
  rcases lt_or_eq_of_le hf2 with hf | hfe
  · have h1 := rhe_le_floor_add_one p
    have h2 := floor_le_rhe q
    omega
  · have hfr : (⌊p⌋ : ℚ) = (⌊q⌋ : ℚ) := by exact_mod_cast hfe
    have hfpq : p - (⌊p⌋ : ℚ) ≤ q - (⌊q⌋ : ℚ) := by rw [← hfr]; linarith
    rcases rhe_eq_cases p with ⟨hb, hp⟩ | ⟨hb, hp⟩ | ⟨hb, hev, hp⟩ | ⟨hb, hev, hp⟩ <;>
      rcases rhe_eq_cases q with ⟨hb', hq⟩ | ⟨hb', hq⟩ | ⟨hb', hev', hq⟩ | ⟨hb', hev', hq⟩ <;>
      first
        | omega
        | (exfalso; linarith)
        | (exfalso; rw [hfe] at hev; exact hev' hev)
        | (exfalso; rw [hfe] at hev; exact hev hev')

/-- Round-half-even of a nonnegative argument is nonnegative. -/
theorem rhe_nonneg {q : ℚ} (h : 0 ≤ q) : 0 ≤ rhe q := by
  have h1 := floor_le_rhe q
  have h2 : 0 ≤ ⌊q⌋ := Int.floor_nonneg.mpr h
  omega

/-- `pow2` is positive. -/
theorem pow2_pos (k : ℤ) : 0 < pow2 k := by
  rw [pow2_eq_zpow]
  exact zpow2_pos k

/-- `rnd53` of a nonpositive is zero. -/
theorem rnd53_of_nonpos {x : ℚ} (h : x ≤ 0) : rnd53 x = 0 := by
  unfold rnd53
  rw [if_pos h]

/-- `rnd53` on positives. -/
theorem rnd53_eq_of_pos {x : ℚ} (hx : 0 < x) :
    rnd53 x = (rhe (x * pow2 (52 - qlog2 x)) : ℚ) * pow2 (qlog2 x - 52) := by
  unfold rnd53
  rw [if_neg (not_le.mpr hx)]

/-- `rnd53` is nonnegative. -/
theorem rnd53_nonneg (x : ℚ) : 0 ≤ rnd53 x := by
  by_cases h : x ≤ 0
  · rw [rnd53_of_nonpos h]
  · have hx : 0 < x := lt_of_not_le h
    rw [rnd53_eq_of_pos hx]
    apply mul_nonneg _ (le_of_lt (pow2_pos _))
    have : (0 : ℤ) ≤ rhe (x * pow2 (52 - qlog2 x)) :=
      rhe_nonneg (mul_nonneg (le_of_lt hx) (le_of_lt (pow2_pos _)))
    exact_mod_cast this

/-- The fundamental rounding error bound of `rnd53`. -/
theorem rnd53_err {x : ℚ} (hx : 0 < x) :
    |rnd53 x - x| ≤ (2 : ℚ) ^ (qlog2 x - 53) := by
  rw [rnd53_eq_of_pos hx, pow2_eq_zpow, pow2_eq_zpow]
  set e := qlog2 x with he
  set z := x * (2 : ℚ) ^ (52 - e) with hz
  have hxz : x = z * (2 : ℚ) ^ (e - 52) := by
    rw [hz, mul_assoc, ← zpow_add₀ (by norm_num : (2 : ℚ) ≠ 0)]
    norm_num
  have h1 : (rhe z : ℚ) * (2 : ℚ) ^ (e - 52) - x =
      ((rhe z : ℚ) - z) * (2 : ℚ) ^ (e - 52) := by
    rw [sub_mul, ← hxz]
  rw [h1, abs_mul, abs_of_pos (zpow2_pos _)]
  have h2 : |(rhe z : ℚ) - z| * (2 : ℚ) ^ (e - 52) ≤ (1 / 2) * (2 : ℚ) ^ (e - 52) :=
    mul_le_mul_of_nonneg_right (rhe_err z) (le_of_lt (zpow2_pos _))
  have h3 : (1 / 2 : ℚ) * (2 : ℚ) ^ (e - 52) = (2 : ℚ) ^ (e - 53) := by
    rw [show (1 / 2 : ℚ) = (2 : ℚ) ^ (-1 : ℤ) by norm_num,
      ← zpow_add₀ (by norm_num : (2 : ℚ) ≠ 0)]
    ring_nf
  rw [h3] at h2
  exact h2

/-- `rnd53` does not exceed the next power of two. -/
theorem rnd53_le_two_pow {x : ℚ} (hx : 0 < x) :
    rnd53 x ≤ (2 : ℚ) ^ (qlog2 x + 1) := by
  obtain ⟨h1, h2⟩ := qlog2_correct hx
  rw [rnd53_eq_of_pos hx, pow2_eq_zpow, pow2_eq_zpow]
  set e := qlog2 x with he
  set z := x * (2 : ℚ) ^ (52 - e) with hz
  have hzlt : z < (2 : ℚ) ^ (53 : ℤ) := by
    rw [hz]
    calc x * (2 : ℚ) ^ (52 - e) < (2 : ℚ) ^ (e + 1) * (2 : ℚ) ^ (52 - e) :=
      mul_lt_mul_of_pos_right h2 (zpow2_pos _)
    _ = (2 : ℚ) ^ (53 : ℤ) := by
        rw [← zpow_add₀ (by norm_num : (2 : ℚ) ≠ 0)]
        ring_nf
  have hfl : ⌊z⌋ < (2 : ℤ) ^ 53 := by
    rw [Int.floor_lt]
    calc z < (2 : ℚ) ^ (53 : ℤ) := hzlt
    _ = ((2 ^ 53 : ℤ) : ℚ) := zpow53_cast
  have hrhe : rhe z ≤ (2 : ℤ) ^ 53 := by
    have := rhe_le_floor_add_one z
    omega
  have hrheQ : (rhe z : ℚ) ≤ (2 : ℚ) ^ (53 : ℤ) := by
    calc (rhe z : ℚ) ≤ ((2 ^ 53 : ℤ) : ℚ) := by exact_mod_cast hrhe
    _ = (2 : ℚ) ^ (53 : ℤ) := zpow53_cast.symm
  calc (rhe z : ℚ) * (2 : ℚ) ^ (e - 52) ≤ (2 : ℚ) ^ (53 : ℤ) * (2 : ℚ) ^ (e - 52) :=
    mul_le_mul_of_nonneg_right hrheQ (le_of_lt (zpow2_pos _))
  _ = (2 : ℚ) ^ (e + 1) := by
      rw [← zpow_add₀ (by norm_num : (2 : ℚ) ≠ 0)]
      ring_nf

/-- `rnd53` is at least the current power of two. -/
theorem two_pow_le_rnd53 {x : ℚ} (hx : 0 < x) :
    (2 : ℚ) ^ (qlog2 x) ≤ rnd53 x := by
  obtain ⟨h1, h2⟩ := qlog2_correct hx
  rw [rnd53_eq_of_pos hx, pow2_eq_zpow, pow2_eq_zpow]
  set e := qlog2 x with he
  set z := x * (2 : ℚ) ^ (52 - e) with hz
  have hzge : (2 : ℚ) ^ (52 : ℤ) ≤ z := by
    have he1 : (2 : ℚ) ^ (52 : ℤ) = (2 : ℚ) ^ e * (2 : ℚ) ^ (52 - e) := by
      rw [← zpow_add₀ (by norm_num : (2 : ℚ) ≠ 0)]
      ring_nf
    rw [hz, he1]
    exact mul_le_mul_of_nonneg_right h1 (le_of_lt (zpow2_pos _))
  have hfl : (2 : ℤ) ^ 52 ≤ ⌊z⌋ := by
    rw [Int.le_floor]
    calc ((2 ^ 52 : ℤ) : ℚ) = (2 : ℚ) ^ (52 : ℤ) := zpow52_cast.symm
    _ ≤ z := hzge
  have hrhe : (2 : ℤ) ^ 52 ≤ rhe z := by
    have := floor_le_rhe z
    omega
  have hrheQ : (2 : ℚ) ^ (52 : ℤ) ≤ (rhe z : ℚ) := by
    calc (2 : ℚ) ^ (52 : ℤ) = ((2 ^ 52 : ℤ) : ℚ) := zpow52_cast
    _ ≤ (rhe z : ℚ) := by exact_mod_cast hrhe
  have he2 : (2 : ℚ) ^ e = (2 : ℚ) ^ (52 : ℤ) * (2 : ℚ) ^ (e - 52) := by
    rw [← zpow_add₀ (by norm_num : (2 : ℚ) ≠ 0)]
    ring_nf
  rw [he2]
  exact mul_le_mul_of_nonneg_right hrheQ (le_of_lt (zpow2_pos _))

/-- `rnd53` is monotone on nonnegative arguments. -/
theorem rnd53_mono {x y : ℚ} (hx : 0 ≤ x) (hxy : x ≤ y) : rnd53 x ≤ rnd53 y := by
  rcases eq_or_lt_of_le hx with heq | hxpos
  · rw [rnd53_of_nonpos (le_of_eq heq.symm)]
    exact rnd53_nonneg y
  · have hy : 0 < y := lt_of_lt_of_le hxpos hxy
    have hee : qlog2 x ≤ qlog2 y := by
      obtain ⟨hx1, hx2⟩ := qlog2_correct hxpos
      obtain ⟨hy1, hy2⟩ := qlog2_correct hy
      by_contra hlt
      push_neg at hlt
      have := zpow2_mono (show qlog2 y + 1 ≤ qlog2 x by omega)
      linarith
    rcases eq_or_lt_of_le hee with hee' | hlt
    · rw [rnd53_eq_of_pos hxpos, rnd53_eq_of_pos hy, ← hee']
      have hz : x * pow2 (52 - qlog2 x) ≤ y * pow2 (52 - qlog2 x) :=
        mul_le_mul_of_nonneg_right hxy (le_of_lt (pow2_pos _))
      apply mul_le_mul_of_nonneg_right _ (le_of_lt (pow2_pos _))
      exact_mod_cast rhe_mono hz
    · calc rnd53 x ≤ (2 : ℚ) ^ (qlog2 x + 1) := rnd53_le_two_pow hxpos
      _ ≤ (2 : ℚ) ^ (qlog2 y) := zpow2_mono (by omega)
      _ ≤ rnd53 y := two_pow_le_rnd53 hy

/-- `rnd53` against a nonnegative upper bound. -/
theorem rnd53_le_rnd53_of_le {x c : ℚ} (hc : 0 ≤ c) (hxc : x ≤ c) :
    rnd53 x ≤ rnd53 c := by
  by_cases hx0 : x ≤ 0
  · rw [rnd53_of_nonpos hx0]
    exact rnd53_nonneg c
  · exact rnd53_mono (le_of_lt (lt_of_not_le hx0)) hxc

theorem rnd53_one : rnd53 1 = 1 := by decide

theorem rnd53_255 : rnd53 255 = 255 := by decide

/-- Error bound from a dyadic upper bound on the argument. -/
theorem rnd53_err_le {x : ℚ} (m : ℤ) (hx0 : 0 ≤ x) (hxu : x ≤ (2 : ℚ) ^ (m + 1)) :
    |rnd53 x - x| ≤ (2 : ℚ) ^ (m - 53) := by
  rcases eq_or_lt_of_le hx0 with heq | hxpos
  · rw [← heq, rnd53_of_nonpos (le_refl 0)]
    simp only [sub_zero, abs_zero]
    exact le_of_lt (zpow2_pos _)
  · rcases lt_or_eq_of_le hxu with hlt | heq2
    · have he : qlog2 x ≤ m := by
        obtain ⟨h1, _⟩ := qlog2_correct hxpos
        by_contra hc
        push_neg at hc
        have := zpow2_mono (show m + 1 ≤ qlog2 x by omega)
        linarith
      exact le_trans (rnd53_err hxpos) (zpow2_mono (by omega))
    · have heq3 : qlog2 x = m + 1 := by
        apply qlog2_unique hxpos heq2.symm.le
        rw [heq2]
        exact zpow2_strictMono (by omega)
      have hz : x * pow2 (52 - qlog2 x) = ((2 ^ 52 : ℤ) : ℚ) := by
        rw [heq3, heq2, pow2_eq_zpow, ← zpow_add₀ (by norm_num : (2 : ℚ) ≠ 0),
          show m + 1 + (52 - (m + 1)) = (52 : ℤ) by ring, zpow52_cast]
      rw [rnd53_eq_of_pos hxpos, hz, rhe_intCast]
      have hfin : ((2 ^ 52 : ℤ) : ℚ) * pow2 (qlog2 x - 52) = x := by
        rw [heq3, heq2, pow2_eq_zpow, ← zpow52_cast,
          ← zpow_add₀ (by norm_num : (2 : ℚ) ≠ 0),
          show (52 : ℤ) + (m + 1 - 52) = m + 1 by ring]
      rw [hfin]
      simp only [sub_self, abs_zero]
      exact le_of_lt (zpow2_pos _)

/-- Error bound for arguments in `[0, 1]`. -/
theorem rnd53_err_unit {x : ℚ} (h0 : 0 ≤ x) (h1 : x ≤ 1) :
    |rnd53 x - x| ≤ 1 / 2 ^ 54 := by
  have h := rnd53_err_le (-1) h0 (by rw [show (-1 : ℤ) + 1 = 0 by ring, zpow_zero]; exact h1)
  have hconv : (2 : ℚ) ^ ((-1 : ℤ) - 53) = 1 / 2 ^ 54 := by
    rw [show ((-1 : ℤ) - 53) = -(54 : ℤ) by ring, zpow_neg, one_div,
      show (54 : ℤ) = ((54 : ℕ) : ℤ) from rfl, zpow_natCast]
  rw [hconv] at h
  exact h

/-- Error bound for arguments in `[0, 255]`. -/
theorem rnd53_err_255 {x : ℚ} (h0 : 0 ≤ x) (h1 : x ≤ 255) :
    |rnd53 x - x| ≤ 1 / 2 ^ 46 := by
  have h := rnd53_err_le 7 h0 (by
    rw [show (7 : ℤ) + 1 = ((8 : ℕ) : ℤ) from rfl, zpow_natCast]
    norm_num
    linarith)
  have hconv : (2 : ℚ) ^ ((7 : ℤ) - 53) = 1 / 2 ^ 46 := by
    rw [show ((7 : ℤ) - 53) = -(46 : ℤ) by ring, zpow_neg, one_div,
      show (46 : ℤ) = ((46 : ℕ) : ℤ) from rfl, zpow_natCast]
  rw [hconv] at h
  exact h

/-! ## The uint8 truncation -/

/-- On nonnegative arguments, `toUint8` is the floor. -/
theorem toUint8_eq_floor {q : ℚ} (hq : 0 ≤ q) : (toUint8 q : ℤ) = ⌊q⌋ := by
  have hnum : 0 ≤ q.num := Rat.num_nonneg.mpr hq
  have hden : 0 < q.den := q.pos
  set k := q.num.toNat / q.den with hk
  have hqeq : q = (q.num : ℚ) / (q.den : ℚ) := (Rat.num_div_den q).symm
  have hdenQ : (0 : ℚ) < (q.den : ℚ) := by exact_mod_cast hden
  have hNQ : ((q.num.toNat : ℕ) : ℚ) = (q.num : ℚ) := by
    exact_mod_cast Int.toNat_of_nonneg hnum
  have hlow : ((k : ℕ) : ℚ) ≤ q := by
    rw [hqeq, le_div_iff₀ hdenQ, ← hNQ]
    exact_mod_cast Nat.div_mul_le_self q.num.toNat q.den
  have hhigh : q < ((k : ℕ) : ℚ) + 1 := by
    rw [hqeq, div_lt_iff₀ hdenQ, ← hNQ]
    have hnat : q.num.toNat < (k + 1) * q.den := by
      have hdm : q.den * k + q.num.toNat % q.den = q.num.toNat := by
        rw [hk]
        exact Nat.div_add_mod _ _
      have hmod : q.num.toNat % q.den < q.den := Nat.mod_lt _ hden
      have he : (k + 1) * q.den = q.den * k + q.den := by ring
      rw [he, ← hdm]
      exact Nat.add_lt_add_left hmod _
    calc ((q.num.toNat : ℕ) : ℚ) < (((k + 1) * q.den : ℕ) : ℚ) := by exact_mod_cast hnat
    _ = (((k : ℕ) : ℚ) + 1) * (q.den : ℚ) := by push_cast; ring
  symm
  rw [show ((toUint8 q : ℤ)) = ((k : ℕ) : ℤ) from rfl]
  rw [Int.floor_eq_iff]
  constructor
  · exact_mod_cast hlow
  · exact_mod_cast hhigh

/-- `toUint8` sandwich on nonnegative arguments. -/
theorem toUint8_sandwich {q : ℚ} (hq : 0 ≤ q) :
    (toUint8 q : ℚ) ≤ q ∧ q < (toUint8 q : ℚ) + 1 := by
  have h := toUint8_eq_floor hq
  have h1 : ((toUint8 q : ℤ) : ℚ) ≤ q := by rw [h]; exact Int.floor_le q
  have h2 : q < ((toUint8 q : ℤ) : ℚ) + 1 := by rw [h]; exact Int.lt_floor_add_one q
  constructor
  · exact_mod_cast h1
  · exact_mod_cast h2

/-- `toUint8` is monotone on nonnegative arguments. -/
theorem toUint8_mono {p q : ℚ} (hp : 0 ≤ p) (hpq : p ≤ q) :
    toUint8 p ≤ toUint8 q := by
  have h1 := toUint8_eq_floor hp
  have h2 := toUint8_eq_floor (le_trans hp hpq)
  have h3 : ⌊p⌋ ≤ ⌊q⌋ := Int.floor_le_floor hpq
  omega

/-- `toUint8` from an upper bound. -/
theorem toUint8_le_of_le {q : ℚ} (hq : 0 ≤ q) {n : ℕ} (h : q ≤ (n : ℚ)) :
    toUint8 q ≤ n := by
  have h1 := toUint8_eq_floor hq
  have h2 : ⌊q⌋ ≤ (n : ℤ) := by
    have h3 := Int.floor_le_floor h
    rwa [Int.floor_natCast] at h3
  omega

/-! ## Quantitative behaviour of the gradient pixel -/

/-- Gradient pixels are 8-bit. -/
theorem gradient_pixel_le_255 (w x : ℕ) : gradient_pixel w x ≤ 255 := by
  have hstep : ∀ progress : ℚ, 0 ≤ progress →
      toUint8 (rnd53 (255 * rnd53 (1 - progress))) ≤ 255 := by
    intro progress hp
    have hs : rnd53 (1 - progress) ≤ 1 := by
      have := rnd53_le_rnd53_of_le (le_of_lt one_pos) (by linarith : 1 - progress ≤ 1)
      rw [rnd53_one] at this
      exact this
    have hs0 : 0 ≤ rnd53 (1 - progress) := rnd53_nonneg _
    have hu : rnd53 (255 * rnd53 (1 - progress)) ≤ 255 := by
      have := rnd53_le_rnd53_of_le (by norm_num : (0 : ℚ) ≤ 255)
        (by linarith : 255 * rnd53 (1 - progress) ≤ 255)
      rw [rnd53_255] at this
      exact this
    exact toUint8_le_of_le (rnd53_nonneg _) (by exact_mod_cast hu)
  unfold gradient_pixel
  by_cases hw : 1 < w
  · rw [if_pos hw]
    exact hstep _ (rnd53_nonneg _)
  · rw [if_neg hw]
    exact hstep 0 (le_refl 0)

/-- The gradient pixel is antitone in the column index. -/
theorem gradient_pixel_antitone {w x y : ℕ} (hw : 2 ≤ w) (hxy : x ≤ y)
    (hy : y ≤ w - 1) : gradient_pixel w y ≤ gradient_pixel w x := by
  have h1w : 1 < w := hw
  have hWpos : (0 : ℚ) < (w : ℚ) - 1 := by
    have : (2 : ℚ) ≤ (w : ℚ) := by exact_mod_cast hw
    linarith
  unfold gradient_pixel
  rw [if_pos h1w, if_pos h1w]
  have hdiv : (x : ℚ) / ((w : ℚ) - 1) ≤ (y : ℚ) / ((w : ℚ) - 1) :=
    div_le_div_of_le_of_nonneg (by exact_mod_cast hxy) (le_of_lt hWpos)
  have hprog : rnd53 ((x : ℚ) / ((w : ℚ) - 1)) ≤ rnd53 ((y : ℚ) / ((w : ℚ) - 1)) :=
    rnd53_mono (div_nonneg (by positivity) (le_of_lt hWpos)) hdiv
  have hsub : 1 - rnd53 ((y : ℚ) / ((w : ℚ) - 1)) ≤ 1 - rnd53 ((x : ℚ) / ((w : ℚ) - 1)) := by
    linarith
  have hs : rnd53 (1 - rnd53 ((y : ℚ) / ((w : ℚ) - 1))) ≤
      rnd53 (1 - rnd53 ((x : ℚ) / ((w : ℚ) - 1))) := by
    by_cases hneg : 1 - rnd53 ((y : ℚ) / ((w : ℚ) - 1)) ≤ 0
    · rw [rnd53_of_nonpos hneg]
      exact rnd53_nonneg _
    · exact rnd53_mono (le_of_lt (lt_of_not_le hneg)) hsub
  have hmul : 255 * rnd53 (1 - rnd53 ((y : ℚ) / ((w : ℚ) - 1))) ≤
      255 * rnd53 (1 - rnd53 ((x : ℚ) / ((w : ℚ) - 1))) := by linarith
  have hout : rnd53 (255 * rnd53 (1 - rnd53 ((y : ℚ) / ((w : ℚ) - 1)))) ≤
      rnd53 (255 * rnd53 (1 - rnd53 ((x : ℚ) / ((w : ℚ) - 1)))) :=
    rnd53_mono (mul_nonneg (by norm_num) (rnd53_nonneg _)) hmul
  exact toUint8_mono (rnd53_nonneg _) hout

/-- Quantitative bounds on the gradient pixel against the exact value
`255 * (1 - x / (w - 1))`. -/
theorem gradient_pixel_bounds {w x : ℕ} (hw : 2 ≤ w) (hx : x ≤ w - 1) :
    (gradient_pixel w x : ℚ) ≤ 255 * (1 - (x : ℚ) / ((w : ℚ) - 1)) + 1 / 2 ^ 44 ∧
    255 * (1 - (x : ℚ) / ((w : ℚ) - 1)) - 1 - 1 / 2 ^ 44 < (gradient_pixel w x : ℚ) := by
  have h1w : 1 < w := hw
  have hWpos : (0 : ℚ) < (w : ℚ) - 1 := by
    have : (2 : ℚ) ≤ (w : ℚ) := by exact_mod_cast hw
    linarith
  set t : ℚ := (x : ℚ) / ((w : ℚ) - 1) with ht
  have ht0 : 0 ≤ t := div_nonneg (by positivity) (le_of_lt hWpos)
  have ht1 : t ≤ 1 := by
    rw [ht, div_le_one hWpos]
    have hxw : (x : ℚ) ≤ ((w - 1 : ℕ) : ℚ) := by exact_mod_cast hx
    have hcast : ((w - 1 : ℕ) : ℚ) = (w : ℚ) - 1 := by
      have : 1 ≤ w := by omega
      push_cast [this]
      ring
    linarith [hcast ▸ hxw]
  set progress : ℚ := rnd53 t with hprog
  have hp0 : 0 ≤ progress := rnd53_nonneg _
  have hp1 : progress ≤ 1 := by
    have := rnd53_le_rnd53_of_le (le_of_lt one_pos) ht1
    rw [rnd53_one] at this
    exact this
  have hperr : |progress - t| ≤ 1 / 2 ^ 54 := rnd53_err_unit ht0 ht1
  set spre : ℚ := 1 - progress with hspre
  have hs0 : 0 ≤ spre := by linarith
  have hs1 : spre ≤ 1 := by linarith
  set s : ℚ := rnd53 spre with hs
  have hserr : |s - spre| ≤ 1 / 2 ^ 54 := rnd53_err_unit hs0 hs1
  have hsnn : 0 ≤ s := rnd53_nonneg _
  have hsle : s ≤ 1 := by
    have := rnd53_le_rnd53_of_le (le_of_lt one_pos) hs1
    rw [rnd53_one] at this
    exact this
  set u : ℚ := rnd53 (255 * s) with hu
  have hm0 : 0 ≤ 255 * s := by linarith
  have hm255 : 255 * s ≤ 255 := by linarith
  have huerr : |u - 255 * s| ≤ 1 / 2 ^ 46 := rnd53_err_255 hm0 hm255
  have hu0 : 0 ≤ u := rnd53_nonneg _
  have hgp : gradient_pixel w x = toUint8 u := by
    unfold gradient_pixel
    rw [if_pos h1w]
  obtain ⟨hg1, hg2⟩ := toUint8_sandwich hu0
  rw [abs_le] at hperr hserr huerr
  rw [hgp]
  constructor
  · linarith [hperr.1, hperr.2, hserr.1, hserr.2, huerr.1, huerr.2]
  · linarith [hperr.1, hperr.2, hserr.1, hserr.2, huerr.1, huerr.2]

/-- For widths strictly above `2^b`, the quantized gradient attains every
output level. -/
theorem gradient_hits_level (bits w : ℕ) (h1 : 1 ≤ bits) (h4 : bits ≤ 4)
    (hw : 2 ^ bits < w) (i : ℕ) (hi : i < 2 ^ bits) :
    ∃ x, x < w ∧
      quantize_to_bits_pixel bits (gradient_pixel w x) = 255 * i / (2 ^ bits - 1) := by
  have hL2 : 2 ≤ 2 ^ bits := by
    calc 2 = 2 ^ 1 := rfl
    _ ≤ 2 ^ bits := Nat.pow_le_pow_right (by omega) h1
  have hL16 : 2 ^ bits ≤ 16 := by
    calc 2 ^ bits ≤ 2 ^ 4 := Nat.pow_le_pow_right (by omega) h4
    _ = 16 := rfl
  obtain ⟨W, rfl⟩ : ∃ W, w = W + 1 := ⟨w - 1, by omega⟩
  set M : ℕ := 2 ^ bits - 1 with hM
  have hM1 : 1 ≤ M := by omega
  have hM15 : M ≤ 15 := by omega
  have hModd : M % 2 = 1 := by
    have : 2 ^ bits % 2 = 0 := by
      have : (2 : ℕ) ∣ 2 ^ bits := dvd_pow_self 2 (by omega)
      omega
    omega
  have hWM : M + 1 ≤ W := by omega
  have hiM : i ≤ M := by omega
  set xs : ℕ := (2 * (M - i) * W + M) / (2 * M) with hxs
  -- Nat division characterization, sharpened by parity of the remainder
  obtain ⟨B, hB⟩ : ∃ B, 2 * (M - i) * W = 2 * B := ⟨(M - i) * W, by ring⟩
  obtain ⟨C, hC⟩ : ∃ C, 2 * M * xs = 2 * C := ⟨M * xs, by ring⟩
  have hdm : 2 * M * xs + (2 * (M - i) * W + M) % (2 * M) = 2 * (M - i) * W + M := by
    rw [hxs]
    exact Nat.div_add_mod _ _
  have hmod : (2 * (M - i) * W + M) % (2 * M) < 2 * M := Nat.mod_lt _ (by omega)
  set r : ℕ := (2 * (M - i) * W + M) % (2 * M) with hr
  have heq : 2 * C + r = 2 * B + M := by
    rw [← hC, ← hB]
    exact hdm
  have hrodd : r % 2 = 1 := by omega
  have hdivL : 2 * M * xs ≤ 2 * (M - i) * W + M - 1 := by
    have h1r : 1 ≤ r := by omega
    rw [hC, hB]
    omega
  have hdivU : 2 * (M - i) * W ≤ 2 * M * xs + M - 1 := by
    have h2r : r ≤ 2 * M - 1 := by omega
    rw [hC, hB]
    omega
  have hxsW : xs ≤ W := by
    have hA : 2 * (M - i) * W + M < 2 * M * (W + 1) := by
      have hle : 2 * (M - i) * W ≤ 2 * M * W :=
        Nat.mul_le_mul_right W (by omega)
      have he : 2 * M * (W + 1) = 2 * M * W + 2 * M := by ring
      omega
    have h1' : 2 * M * xs < 2 * M * (W + 1) := by
      have := hdm
      omega
    have := Nat.lt_of_mul_lt_mul_left h1'
    omega
  -- gradient pixel bounds at column xs
  set g : ℕ := gradient_pixel (W + 1) xs with hg
  have hg255 : g ≤ 255 := gradient_pixel_le_255 _ _
  obtain ⟨hgu, hgl⟩ := gradient_pixel_bounds (w := W + 1) (x := xs) (by omega) (by omega)
  have hWcast : ((W + 1 : ℕ) : ℚ) - 1 = (W : ℚ) := by push_cast; ring
  rw [hWcast] at hgu hgl
  rw [← hg] at hgu hgl
  -- pass to ℚ
  have hWQpos : (0 : ℚ) < (W : ℚ) := by
    have : (1 : ℚ) ≤ (W : ℚ) := by exact_mod_cast (by omega : 1 ≤ W)
    linarith
  have hxsW_cancel : (xs : ℚ) / (W : ℚ) * (W : ℚ) = (xs : ℚ) :=
    div_mul_cancel₀ _ (ne_of_gt hWQpos)
  have hguW : (g : ℚ) * (W : ℚ) ≤
      255 * ((W : ℚ) - (xs : ℚ)) + (1 / 2 ^ 44) * (W : ℚ) := by
    have h0 := mul_le_mul_of_nonneg_right hgu (le_of_lt hWQpos)
    have he : (255 * (1 - (xs : ℚ) / (W : ℚ)) + 1 / 2 ^ 44) * (W : ℚ) =
        255 * (W : ℚ) - 255 * ((xs : ℚ) / (W : ℚ) * (W : ℚ)) + (1 / 2 ^ 44) * (W : ℚ) := by
      ring
    rw [he, hxsW_cancel] at h0
    linarith
  have hglW : 255 * ((W : ℚ) - (xs : ℚ)) + (-1 - 1 / 2 ^ 44) * (W : ℚ) <
      (g : ℚ) * (W : ℚ) := by
    have h0 := mul_lt_mul_of_pos_right hgl hWQpos
    have he : (255 * (1 - (xs : ℚ) / (W : ℚ)) - 1 - 1 / 2 ^ 44) * (W : ℚ) =
        255 * (W : ℚ) - 255 * ((xs : ℚ) / (W : ℚ) * (W : ℚ)) + (-1 - 1 / 2 ^ 44) * (W : ℚ) := by
      ring
    rw [he, hxsW_cancel] at h0
    linarith
  -- cast the division bounds
  have hMiQ : ((M - i : ℕ) : ℚ) = (M : ℚ) - (i : ℚ) := by
    push_cast [hiM]
    ring
  have hdivLQ : 2 * (M : ℚ) * (xs : ℚ) ≤
      2 * ((M : ℚ) - (i : ℚ)) * (W : ℚ) + (M : ℚ) - 1 := by
    have hnat : (2 * M * xs : ℕ) ≤ (2 * (M - i) * W + M - 1 : ℕ) := hdivL
    have h1M : (1 : ℕ) ≤ 2 * (M - i) * W + M := by omega
    have := (Nat.cast_le (α := ℚ)).mpr hnat
    rw [Nat.cast_sub h1M] at this
    push_cast [hMiQ] at this
    linarith [this]
  have hdivUQ : 2 * ((M : ℚ) - (i : ℚ)) * (W : ℚ) ≤
      2 * (M : ℚ) * (xs : ℚ) + (M : ℚ) - 1 := by
    have h1M : (1 : ℕ) ≤ 2 * M * xs + M := by omega
    have hnat : (2 * (M - i) * W : ℕ) ≤ (2 * M * xs + M - 1 : ℕ) := hdivU
    have := (Nat.cast_le (α := ℚ)).mpr hnat
    rw [Nat.cast_sub h1M] at this
    push_cast [hMiQ] at this
    linarith [this]
  -- ranges in ℚ
  have hM1Q : (1 : ℚ) ≤ (M : ℚ) := by exact_mod_cast hM1
  have hM15Q : (M : ℚ) ≤ 15 := by exact_mod_cast hM15
  have hWMQ : (M : ℚ) + 1 ≤ (W : ℚ) := by exact_mod_cast hWM
  have hi0Q : (0 : ℚ) ≤ (i : ℚ) := by positivity
  have hgQ0 : (0 : ℚ) ≤ (g : ℚ) := by positivity
  have hMW15 : (M : ℚ) * (W : ℚ) ≤ 15 * (W : ℚ) :=
    mul_le_mul_of_nonneg_right hM15Q (le_of_lt hWQpos)
  -- the two target inequalities in ℚ
  have hMQpos : (0 : ℚ) < 2 * (M : ℚ) := by linarith
  have hH1M : 2 * (M : ℚ) * ((g : ℚ) * (W : ℚ)) ≤
      2 * (M : ℚ) * (255 * ((W : ℚ) - (xs : ℚ)) + (1 / 2 ^ 44) * (W : ℚ)) :=
    mul_le_mul_of_nonneg_left hguW (by linarith)
  have hH2M : 2 * (M : ℚ) * (255 * ((W : ℚ) - (xs : ℚ)) + (-1 - 1 / 2 ^ 44) * (W : ℚ)) <
      2 * (M : ℚ) * ((g : ℚ) * (W : ℚ)) :=
    mul_lt_mul_of_pos_left hglW hMQpos
  have hQA : (i : ℚ) * 510 ≤ 2 * (g : ℚ) * (M : ℚ) + 255 := by
    rw [← mul_le_mul_right hWQpos]
    linarith [hH2M, hdivLQ, hMW15, hWMQ, hM15Q, hM1Q, hi0Q]
  have hQB : 2 * (g : ℚ) * (M : ℚ) + 255 < ((i : ℚ) + 1) * 510 := by
    rw [← mul_lt_mul_right hWQpos]
    linarith [hH1M, hdivUQ, hMW15, hWMQ, hM15Q, hM1Q, hi0Q]
  -- back to ℕ, conclude the nearest index is i
  have hA : i * 510 ≤ 2 * g * M + 255 := by exact_mod_cast hQA
  have hB' : 2 * g * M + 255 < (i + 1) * 510 := by exact_mod_cast hQB
  refine ⟨xs, by omega, ?_⟩
  rw [quantize_to_bits_pixel_eq bits h1 h4 _ (by omega)]
  have hni : nearest_index bits g = i := by
    have : nearest_index bits g = (2 * g * M + 255) / 510 := by
      rw [nearest_index, ← hM]
    rw [this]
    exact Nat.div_eq_of_lt_le hA hB'
  show qmodel bits g = 255 * i / (2 ^ bits - 1)
  rw [qmodel, hni]

/-- The quantized gradient row is non-increasing left to right. -/
theorem gradient_row_pairwise (bits w : ℕ) (h1 : 1 ≤ bits) (h4 : bits ≤ 4) :
    List.Pairwise (· ≥ ·) ((gradient_row w).map (quantize_to_bits_pixel bits)) := by
  by_cases hw2 : 2 ≤ w
  · rw [gradient_row, List.map_map, List.pairwise_map]
    apply List.Pairwise.imp_of_mem ?_ (List.pairwise_lt_range w)
    intro a b _ hbmem hab
    have hbw : b ≤ w - 1 := by
      have := List.mem_range.mp hbmem
      omega
    have hgp : gradient_pixel w b ≤ gradient_pixel w a :=
      gradient_pixel_antitone hw2 (le_of_lt hab) hbw
    exact quantize_pixel_mono bits h1 h4 hgp (gradient_pixel_le_255 w a)
  · interval_cases w
    · simp [gradient_row]
    · rw [gradient_row, show List.range 1 = [0] from rfl]
      simp only [List.map_cons, List.map_nil]
      exact List.pairwise_singleton _ _

/-- Every pixel of the quantized gradient row is an output level. -/
theorem gradient_row_mem_levels (bits w : ℕ) (h1 : 1 ≤ bits) (h4 : bits ≤ 4) :
    ∀ v ∈ (gradient_row w).map (quantize_to_bits_pixel bits), v ∈ out_levels bits := by
  intro v hv
  rcases List.mem_map.mp hv with ⟨p, hpmem, rfl⟩
  rcases List.mem_map.mp hpmem with ⟨x, _, rfl⟩
  have hle := gradient_pixel_le_255 w x
  rw [quantize_to_bits_pixel_eq bits h1 h4 _ (by omega)]
  exact qmodel_mem_out_levels bits h1 h4 _ (by omega)

/-- The quantized gradient row through the closed-form model. -/
theorem gradient_row_map_eq_qmodel (bits w : ℕ) (h1 : 1 ≤ bits) (h4 : bits ≤ 4) :
    (gradient_row w).map (quantize_to_bits_pixel bits) =
      (gradient_row w).map (qmodel bits) := by
  apply List.map_congr_left
  intro p hp
  rcases List.mem_map.mp hp with ⟨x, _, rfl⟩
  have hle := gradient_pixel_le_255 w x
  exact quantize_to_bits_pixel_eq bits h1 h4 _ (by omega)

/-- At widths above `2^b` the quantized gradient row has exactly `2^b`
distinct values. -/
theorem gradient_row_card_of_lt (bits w : ℕ) (h1 : 1 ≤ bits) (h4 : bits ≤ 4)
    (hw : 2 ^ bits < w) :
    ((gradient_row w).map (quantize_to_bits_pixel bits)).toFinset.card = 2 ^ bits := by
  have hsub : ((gradient_row w).map (quantize_to_bits_pixel bits)).toFinset ⊆
      (out_levels bits).toFinset := by
    intro v hv
    rw [List.mem_toFinset] at hv ⊢
    exact gradient_row_mem_levels bits w h1 h4 v hv
  have hsup : (out_levels bits).toFinset ⊆
      ((gradient_row w).map (quantize_to_bits_pixel bits)).toFinset := by
    intro v hv
    rw [List.mem_toFinset] at hv ⊢
    rcases List.mem_map.mp hv with ⟨i, hi, rfl⟩
    rw [List.mem_range] at hi
    obtain ⟨x, hxw, hxeq⟩ := gradient_hits_level bits w h1 h4 hw i hi
    rw [← hxeq]
    exact List.mem_map.mpr ⟨gradient_pixel w x,
      List.mem_map.mpr ⟨x, List.mem_range.mpr hxw, rfl⟩, rfl⟩
  rw [Finset.Subset.antisymm hsub hsup,
    List.toFinset_card_of_nodup (out_levels_nodup bits h1 h4)]
  simp [out_levels]

/-! ## Claims -/

/-- **C3.** For every raw dithered result and every bit depth, if the
number of distinct pixel values in the raw dithered result is not equal to
`L = 2^b`, the Ditherer's post-processing performs no remap and returns the
raw dithered pixel values unchanged. -/
theorem C3_skip_remap_on_mismatch (bits : ℕ) (a : List ℕ)
    (hne : (unique_vals a).length ≠ 2 ^ bits) :
    apply_dithering_post bits a = a := by
  simp only [apply_dithering_post, if_neg hne, ite_self]

/-- Witness for C3 at a concrete input: two distinct values, `b = 2`. -/
theorem C3_skip_remap_on_mismatch_witness :
    apply_dithering_post 2 [0, 7, 7, 200] = [0, 7, 7, 200] :=
  C3_skip_remap_on_mismatch 2 [0, 7, 7, 200] (by decide)

/-- **C4.** For every 8-bit input buffer and every bit depth
`b ∈ {1,2,3,4}`, the Quantizer is idempotent:
`quantize(quantize(x, b), b) = quantize(x, b)`. -/
theorem C4_quantizer_idempotent (bits : ℕ) (h1 : 1 ≤ bits) (h4 : bits ≤ 4)
    (img : List (List ℕ)) (h8 : ∀ row ∈ img, ∀ p ∈ row, p < 256) :
    quantize_to_bits bits (quantize_to_bits bits img) = quantize_to_bits bits img := by
  simp only [quantize_to_bits, List.map_map]
  apply List.map_congr_left
  intro row hrow
  simp only [Function.comp_apply, List.map_map]
  apply List.map_congr_left
  intro p hp
  have hp' : p < 256 := h8 row hrow p hp
  have hq : qmodel bits p < 256 := by
    have := qmodel_le_255 bits h1 h4 p hp'
    omega
  simp only [Function.comp_apply]
  rw [quantize_to_bits_pixel_eq bits h1 h4 p hp',
    quantize_to_bits_pixel_eq bits h1 h4 _ hq,
    qmodel_idem bits h1 h4 p hp']

/-- Witness for C4 at a concrete buffer and `b = 2`. -/
theorem C4_quantizer_idempotent_witness :
    quantize_to_bits 2 (quantize_to_bits 2 [[0, 100, 200, 255], [7, 130, 250, 64]]) =
      quantize_to_bits 2 [[0, 100, 200, 255], [7, 130, 250, 64]] :=
  C4_quantizer_idempotent 2 (by decide) (by decide)
    [[0, 100, 200, 255], [7, 130, 250, 64]] (by decide)

/-- **C5.** For every 8-bit input buffer and every bit depth
`b ∈ {1,2,3,4}`, the number of distinct pixel values occurring in the
Quantizer's output is at most `2^b`. -/
theorem C5_distinct_count_le (bits : ℕ) (h1 : 1 ≤ bits) (h4 : bits ≤ 4)
    (img : List (List ℕ)) (h8 : ∀ row ∈ img, ∀ p ∈ row, p < 256) :
    (quantize_to_bits bits img).flatten.toFinset.card ≤ 2 ^ bits := by
  have hsub : (quantize_to_bits bits img).flatten.toFinset ⊆ (out_levels bits).toFinset := by
    intro v hv
    rw [List.mem_toFinset] at hv ⊢
    rcases List.mem_flatten.mp hv with ⟨row', hrow', hv'⟩
    rcases List.mem_map.mp hrow' with ⟨row, hrow, rfl⟩
    rcases List.mem_map.mp hv' with ⟨p, hp, rfl⟩
    rw [quantize_to_bits_pixel_eq bits h1 h4 p (h8 row hrow p hp)]
    exact qmodel_mem_out_levels bits h1 h4 p (h8 row hrow p hp)
  calc (quantize_to_bits bits img).flatten.toFinset.card
      ≤ (out_levels bits).toFinset.card := Finset.card_le_card hsub
    _ ≤ (out_levels bits).length := List.toFinset_card_le _
    _ = 2 ^ bits := by simp [out_levels]

/-- Witness for C5 at a concrete buffer and `b = 2`. -/
theorem C5_distinct_count_le_witness :
    (quantize_to_bits 2 [[0, 30, 60, 90, 120, 150, 180, 210, 240, 255]]).flatten.toFinset.card
      ≤ 2 ^ 2 :=
  C5_distinct_count_le 2 (by decide) (by decide)
    [[0, 30, 60, 90, 120, 150, 180, 210, 240, 255]] (by decide)

/-- **C7.** For a 100×10 input buffer in which every pixel equals 128, the
Quantizer at bit depth `b = 1` produces a buffer in which every pixel
equals 255 (128 rounds up to level 1 of the two-level set `{0, 255}`). -/
theorem C7_midgray_quantizes_to_white :
    quantize_to_bits 1 (List.replicate 10 (List.replicate 100 128)) =
      List.replicate 10 (List.replicate 100 255) := by
  have h : quantize_to_bits_pixel 1 128 = 255 := by decide
  simp only [quantize_to_bits, List.map_replicate, h]

/-- **C9.** For every bit depth `b ∈ {1,2,3,4}`, the Quantizer's per-pixel
level map is monotone (`p ≤ q → quantized p ≤ quantized q` on 8-bit
values), and hence the Quantizer preserves pixelwise `≤` between 8-bit
buffers. -/
theorem C9_quantizer_monotone (bits : ℕ) (h1 : 1 ≤ bits) (h4 : bits ≤ 4) :
    (∀ p q : ℕ, p ≤ q → q ≤ 255 →
      quantize_to_bits_pixel bits p ≤ quantize_to_bits_pixel bits q) ∧
    ∀ img1 img2 : List (List ℕ), (∀ row ∈ img2, ∀ p ∈ row, p < 256) →
      List.Forall₂ (List.Forall₂ (· ≤ ·)) img1 img2 →
      List.Forall₂ (List.Forall₂ (· ≤ ·)) (quantize_to_bits bits img1)
        (quantize_to_bits bits img2) := by
  refine ⟨fun p q hpq hq => quantize_pixel_mono bits h1 h4 hpq hq, ?_⟩
  intro img1 img2 h8 hrel
  simp only [quantize_to_bits]
  induction hrel with
  | nil => exact List.Forall₂.nil
  | @cons r1 r2 t1 t2 hrow _ ih =>
    refine List.Forall₂.cons ?_ ?_
    · exact quantize_row_mono bits h1 h4 r1 r2
        (fun p hp => h8 r2 (List.mem_cons_self r2 t2) p hp) hrow
    · exact ih (fun row hrowmem p hp => h8 row (List.mem_cons_of_mem _ hrowmem) p hp)

/-- Witness for C9 at concrete buffers and `b = 2`. -/
theorem C9_quantizer_monotone_witness :
    List.Forall₂ (List.Forall₂ (· ≤ ·)) (quantize_to_bits 2 [[0, 50, 90]])
      (quantize_to_bits 2 [[10, 250, 100]]) :=
  (C9_quantizer_monotone 2 (by decide) (by decide)).2 [[0, 50, 90]] [[10, 250, 100]]
    (by decide) (by decide)

/-- **C10.** For every 8-bit input pixel and every bit depth
`b ∈ {1,2,3,4}`, the Quantizer's output pixel differs from the exact
canonical level `round(255 * i/(2^b - 1))` of its selected index `i` by at
most 1, only ever undershooting; outputs stay within `[0, 255]`, and 0 and
255 are reproduced exactly. -/
theorem C10_rescale_undershoot (bits : ℕ) (h1 : 1 ≤ bits) (h4 : bits ≤ 4)
    (p : ℕ) (hp : p < 256) :
    (canonical_level bits (selected_index bits p).toNat - 1 ≤
        quantize_to_bits_pixel bits p ∧
      quantize_to_bits_pixel bits p ≤
        canonical_level bits (selected_index bits p).toNat) ∧
    quantize_to_bits_pixel bits p ≤ 255 ∧
    quantize_to_bits_pixel bits 0 = 0 ∧ quantize_to_bits_pixel bits 255 = 255 := by
  have hsel : (selected_index bits p).toNat = nearest_index bits p := by
    rw [selected_index_eq bits h1 h4 p hp]
    exact Int.toNat_natCast _
  rw [hsel, quantize_to_bits_pixel_eq bits h1 h4 p hp,
    quantize_to_bits_pixel_eq bits h1 h4 0 (by omega),
    quantize_to_bits_pixel_eq bits h1 h4 255 (by omega)]
  exact ⟨c10_nat_facts bits h1 h4 p hp, qmodel_le_255 bits h1 h4 p hp,
    (qmodel_endpoints bits h1 h4).1, (qmodel_endpoints bits h1 h4).2⟩

/-- Witness for C10 at `b = 3`, `p = 146` (the undershooting case:
canonical level 146, code output 145). -/
theorem C10_rescale_undershoot_witness :
    (canonical_level 3 (selected_index 3 146).toNat - 1 ≤
        quantize_to_bits_pixel 3 146 ∧
      quantize_to_bits_pixel 3 146 ≤
        canonical_level 3 (selected_index 3 146).toNat) ∧
    quantize_to_bits_pixel 3 146 ≤ 255 ∧
    quantize_to_bits_pixel 3 0 = 0 ∧ quantize_to_bits_pixel 3 255 = 255 :=
  C10_rescale_undershoot 3 (by decide) (by decide) 146 (by decide)

set_option maxHeartbeats 1000000 in
/-- **C1, counterexample.** At `b = 3` the input pixel 73 (itself a member
of the canonical level set `{0, 36, 73, 109, 146, 182, 219, 255}`) is
quantized to 72, which is not in the canonical set — so the Quantizer's
output pixel is *not* the nearest member of the canonical level set. -/
theorem C1_counterexample :
    quantize_to_bits 3 [[73]] = [[72]] ∧
    (List.range (2 ^ 3)).map (canonical_level 3) =
      [0, 36, 73, 109, 146, 182, 219, 255] ∧
    72 ∉ (List.range (2 ^ 3)).map (canonical_level 3) := by
  refine ⟨?_, by decide, by decide⟩
  have h : quantize_to_bits_pixel 3 73 = 72 := by decide
  simp only [quantize_to_bits, List.map_cons, List.map_nil, h]

/-- **C1, amended.** For every 8-bit buffer and `b ∈ {1,2,3,4}`, the
Quantizer returns a buffer of identical dimensions in which every pixel
value equals `⌊255 * i/(L-1)⌋` where `i` is the index of the nearest
canonical level: the nearest canonical member itself except where the float
rescale-and-truncate undershoots it by one (`b = 3`, `i ∈ {2,4,6}`). -/
theorem C1_amended (bits : ℕ) (h1 : 1 ≤ bits) (h4 : bits ≤ 4)
    (img : List (List ℕ)) (h8 : ∀ row ∈ img, ∀ p ∈ row, p < 256) :
    List.Forall₂ (fun row orow : List ℕ =>
      List.Forall₂ (fun p o : ℕ =>
        o = 255 * nearest_index bits p / (2 ^ bits - 1) ∧
        ∀ j : ℕ, j < 2 ^ bits →
          ndist p (canonical_level bits (nearest_index bits p)) ≤
            ndist p (canonical_level bits j)) row orow)
      img (quantize_to_bits bits img) := by
  rw [quantize_to_bits, List.forall₂_map_right_iff, List.forall₂_same]
  intro row hrow
  rw [List.forall₂_map_right_iff, List.forall₂_same]
  intro p hp
  have hp' : p < 256 := h8 row hrow p hp
  refine ⟨?_, fun j hj => nearest_index_is_nearest bits h1 h4 p hp' j hj⟩
  rw [quantize_to_bits_pixel_eq bits h1 h4 p hp']
  rfl

/-- Witness for the amended C1 at `b = 3` on the buffer `[[73, 0]]`. -/
theorem C1_amended_witness :
    List.Forall₂ (fun row orow : List ℕ =>
      List.Forall₂ (fun p o : ℕ =>
        o = 255 * nearest_index 3 p / (2 ^ 3 - 1) ∧
        ∀ j : ℕ, j < 2 ^ 3 →
          ndist p (canonical_level 3 (nearest_index 3 p)) ≤
            ndist p (canonical_level 3 j)) row orow)
      [[73, 0]] (quantize_to_bits 3 [[73, 0]]) :=
  C1_amended 3 (by decide) (by decide) [[73, 0]] (by decide)

set_option maxHeartbeats 1000000 in
/-- **C2, counterexample.** A raw dithered result with the 8 distinct
values `0..7` at `b = 3` passes the post-processing's distinct-count test,
but its remapped output contains 72 (and 145, 218), which are not in the
canonical level set `{0, 36, 73, 109, 146, 182, 219, 255}`: the remap
targets are computed with truncation (`int(...)`), not rounding. -/
theorem C2_counterexample :
    apply_dithering_post 3 [0, 1, 2, 3, 4, 5, 6, 7] =
      [0, 36, 72, 109, 145, 182, 218, 255] ∧
    (List.range (2 ^ 3)).map (canonical_level 3) =
      [0, 36, 73, 109, 146, 182, 219, 255] ∧
    72 ∉ (List.range (2 ^ 3)).map (canonical_level 3) := by
  refine ⟨by decide, by decide, by decide⟩

/-- **C2, amended.** Whenever the post-processing finds that the number of
distinct raw values equals `L = 2^b` *and* no remap target coincides with a
later (larger) observed raw value (the in-place loop can otherwise remap a
pixel twice), the remapped output maps the `i`-th smallest observed value
to the `i`-th *truncated* level `⌊255 * i/(L-1)⌋`, and in particular uses
only values from the truncated level set. -/
theorem C2_amended (bits : ℕ) (h1 : 1 ≤ bits) (h4 : bits ≤ 4) (a : List ℕ)
    (hlen : (unique_vals a).length = 2 ^ bits)
    (hcol : ∀ k, k < (unique_vals a).length → ∀ j, j < k →
      remap_target (2 ^ bits) j ≠ (unique_vals a).getD k 0) :
    apply_dithering_post bits a =
      a.map (fun v => remap_target (2 ^ bits) ((unique_vals a).indexOf v)) ∧
    ∀ v ∈ apply_dithering_post bits a,
      v ∈ (List.range (2 ^ bits)).map (fun i => 255 * i / (2 ^ bits - 1)) := by
  have h2 : 2 ≤ (unique_vals a).length := by
    rw [hlen]
    calc 2 = 2 ^ 1 := rfl
    _ ≤ 2 ^ bits := Nat.pow_le_pow_right (by omega) h1
  have hmm : listMin a < listMax a := listMin_lt_listMax h2
  have hmain : apply_dithering_post bits a =
      a.map (fun v => remap_target (2 ^ bits) ((unique_vals a).indexOf v)) := by
    simp only [apply_dithering_post, if_pos hmm, if_pos hlen]
    rw [remap_loop_eq]
    apply List.map_congr_left
    intro v hv
    have hvmem : v ∈ unique_vals a := mem_unique_vals.mpr hv
    have := remap_chain_indexOf (2 ^ bits) (unique_vals a) 0
      (fun j k hjk hk => by
        have := hcol k hk j hjk
        simpa using this) v hvmem
    simpa using this
  refine ⟨hmain, ?_⟩
  intro v hv
  rw [hmain] at hv
  rcases List.mem_map.mp hv with ⟨p, hpmem, rfl⟩
  have hpu : p ∈ unique_vals a := mem_unique_vals.mpr hpmem
  have hidx : (unique_vals a).indexOf p < 2 ^ bits := by
    rw [← hlen]
    exact List.indexOf_lt_length.mpr hpu
  rw [remap_target_eq bits h1 h4 _ hidx]
  exact List.mem_map.mpr ⟨(unique_vals a).indexOf p, List.mem_range.mpr hidx, rfl⟩

set_option maxHeartbeats 1000000 in
/-- Witness for the amended C2: `b = 2`, raw values `[10, 20, 200, 250]`
(4 distinct values, no remap-target collision). -/
theorem C2_amended_witness :
    apply_dithering_post 2 [10, 20, 200, 250] =
      [10, 20, 200, 250].map
        (fun v => remap_target (2 ^ 2) ((unique_vals [10, 20, 200, 250]).indexOf v)) ∧
    ∀ v ∈ apply_dithering_post 2 [10, 20, 200, 250],
      v ∈ (List.range (2 ^ 2)).map (fun i => 255 * i / (2 ^ 2 - 1)) :=
  C2_amended 2 (by decide) (by decide) [10, 20, 200, 250] (by decide) (by decide)

/-- **C8, counterexample.** At `b = 4` the composer does *not* process the
smooth gradient strip by the same rule as the 16-level block strip: the
block strip is quantized while the gradient strip is returned unchanged
("for 4-bit gradients, keep them smooth"). -/
theorem C8_counterexample :
    create_section_strip (fun b => b) 4 StripMode.gradient [[1]] ≠
      create_section_strip (fun b => b) 4 StripMode.blocks16 [[1]] := by
  decide

/-- **C8, amended.** For `b < 4` the composer processes the smooth gradient
strip by the same rule as the 16-level block strip (both go to the
Ditherer); at `b = 4` the block strip is a Quantizer output but the
gradient strip is returned unquantized (kept smooth). -/
theorem C8_amended (dither : List (List ℕ) → List (List ℕ)) (bit_depth : ℕ)
    (h1 : 1 ≤ bit_depth) (h4 : bit_depth ≤ 4) (strip : List (List ℕ)) :
    (bit_depth < 4 →
      create_section_strip dither bit_depth StripMode.gradient strip =
        create_section_strip dither bit_depth StripMode.blocks16 strip ∧
      create_section_strip dither bit_depth StripMode.gradient strip = dither strip) ∧
    (bit_depth = 4 →
      create_section_strip dither bit_depth StripMode.blocks16 strip =
        quantize_to_bits 4 strip ∧
      create_section_strip dither bit_depth StripMode.gradient strip = strip) := by
  constructor
  · intro hlt
    simp [create_section_strip, create_grayscale_strip_process, hlt]
  · intro heq
    subst heq
    simp [create_section_strip, create_grayscale_strip_process]

/-- Witness for the amended C8 at `b = 3`, identity ditherer. -/
theorem C8_amended_witness :
    (3 < 4 →
      create_section_strip (fun b => b) 3 StripMode.gradient [[1]] =
        create_section_strip (fun b => b) 3 StripMode.blocks16 [[1]] ∧
      create_section_strip (fun b => b) 3 StripMode.gradient [[1]] =
        (fun (b : List (List ℕ)) => b) [[1]]) ∧
    (3 = 4 →
      create_section_strip (fun b => b) 3 StripMode.blocks16 [[1]] =
        quantize_to_bits 4 [[1]] ∧
      create_section_strip (fun b => b) 3 StripMode.gradient [[1]] = [[1]]) :=
  C8_amended (fun b => b) 3 (by decide) (by decide) [[1]]

/-- **C6.** Quantizing the smooth gradient strip yields `height` identical
rows; each row is monotonically non-increasing left to right (so equal
values form contiguous bands), with exactly `2^b` distinct values (bands)
when the width is at least `2^b`, and at most `width` (hence fewer than
`2^b`) when the width is smaller. -/
theorem C6_gradient_bands (bits w height : ℕ) (h1 : 1 ≤ bits) (h4 : bits ≤ 4) :
    quantize_to_bits bits (gradient_strip w height) =
      List.replicate height ((gradient_row w).map (quantize_to_bits_pixel bits)) ∧
    List.Pairwise (· ≥ ·) ((gradient_row w).map (quantize_to_bits_pixel bits)) ∧
    (2 ^ bits ≤ w →
      ((gradient_row w).map (quantize_to_bits_pixel bits)).toFinset.card = 2 ^ bits) ∧
    (w < 2 ^ bits →
      ((gradient_row w).map (quantize_to_bits_pixel bits)).toFinset.card ≤ w) := by
  refine ⟨?_, gradient_row_pairwise bits w h1 h4, ?_, ?_⟩
  · simp [quantize_to_bits, gradient_strip, List.map_replicate]
  · intro hLw
    rcases eq_or_lt_of_le hLw with heq | hlt
    · rw [gradient_row_map_eq_qmodel bits w h1 h4, ← heq]
      interval_cases bits
      · decide
      · decide
      · decide
      · decide
    · exact gradient_row_card_of_lt bits w h1 h4 hlt
  · intro _
    calc ((gradient_row w).map (quantize_to_bits_pixel bits)).toFinset.card
        ≤ ((gradient_row w).map (quantize_to_bits_pixel bits)).length :=
      List.toFinset_card_le _
    _ = w := by simp [gradient_row]

/-- Witness for C6 at `b = 2`, a 5-wide, 3-high gradient strip. -/
theorem C6_gradient_bands_witness :
    quantize_to_bits 2 (gradient_strip 5 3) =
      List.replicate 3 ((gradient_row 5).map (quantize_to_bits_pixel 2)) ∧
    List.Pairwise (· ≥ ·) ((gradient_row 5).map (quantize_to_bits_pixel 2)) ∧
    (2 ^ 2 ≤ 5 →
      ((gradient_row 5).map (quantize_to_bits_pixel 2)).toFinset.card = 2 ^ 2) ∧
    (5 < 2 ^ 2 →
      ((gradient_row 5).map (quantize_to_bits_pixel 2)).toFinset.card ≤ 5) :=
  C6_gradient_bands 2 5 3 (by decide) (by decide)

end EPD
